import Mathlib

/-!
Verification of the Triadic Reasoning Engine (`triadic_agent.py`).

Strings are modelled as `List Char` (`PyStr`).  The Python text primitives
used by the source (`str.strip`, `str.split`, `str.splitlines`, `str.replace`,
`str.lower`, `re.sub(r"\b\w+$", "", s)`, substring tests) are embedded below;
for the character classes (`\w`, whitespace) the ASCII behaviour is modelled,
which is the behaviour exercised by the program's text filters.

The external language-model service (`TriadicAgent.call`) is modelled as an
oracle parameter: each extraction function takes the raw response text of its
model call as an explicit argument, and the orchestrator `run` takes an
oracle function together with a call log.
-/

/-- Python strings, modelled as lists of characters. -/
abbrev PyStr := List Char

/-- ASCII whitespace as recognised by Python `str.strip()` / `str.split()`. -/
def isPySpace (c : Char) : Bool :=
  c == ' ' || c == '\t' || c == '\n' || c == '\r' || c == '\x0b' || c == '\x0c'

/-- Word characters of the regex class `\w` (ASCII part). -/
def isWordChar (c : Char) : Bool :=
  c.isAlphanum || c == '_'

/-- Python `s.strip()`: remove leading and trailing whitespace. -/
def pyStrip (l : PyStr) : PyStr :=
  ((l.dropWhile isPySpace).reverse.dropWhile isPySpace).reverse

/-- Python `s.strip(chars)`: remove leading and trailing characters drawn from `cs`. -/
def pyStripChars (cs : List Char) (l : PyStr) : PyStr :=
  ((l.dropWhile (cs.contains ·)).reverse.dropWhile (cs.contains ·)).reverse

/-- Python `s.rstrip(chars)`: remove trailing characters drawn from `cs`. -/
def pyRstripChars (cs : List Char) (l : PyStr) : PyStr :=
  (l.reverse.dropWhile (cs.contains ·)).reverse

/-- Split a string at every character satisfying `p`, keeping empty chunks,
like Python `s.split(sep)` for a one-character separator. -/
def splitP (p : Char → Bool) : PyStr → List PyStr
  | [] => [[]]
  | c :: rest =>
    match splitP p rest with
    | [] => [[]]
    | h :: t => if p c then [] :: h :: t else (c :: h) :: t

/-- Python `s.splitlines()` for `\x5cn`-separated text: like split on the
newline character, except that the empty string yields no lines and a single
trailing newline does not produce a trailing empty line. -/
def pySplitLines (raw : PyStr) : List PyStr :=
  if raw.isEmpty then []
  else if raw.getLast? == some '\n' then splitP (· == '\n') raw.dropLast
  else splitP (· == '\n') raw

/-- Python `sep.join(parts)`. -/
def joinSep (sep : PyStr) : List PyStr → PyStr
  | [] => []
  | [x] => x
  | x :: y :: rest => x ++ sep ++ joinSep sep (y :: rest)

/-- Python `pat in s`: substring occurrence test. -/
def isSubOf (pat : PyStr) : PyStr → Bool
  | [] => pat.isEmpty
  | c :: rest => pat.isPrefixOf (c :: rest) || isSubOf pat rest

/-- Fuelled worker for `removeAll`; the fuel only serves to make the
recursion structural, `removeAll` always supplies enough of it. -/
def removeAllFuel : Nat → PyStr → PyStr → PyStr
  | 0, _, l => l
  | _ + 1, _, [] => []
  | fuel + 1, pat, c :: t =>
    if !pat.isEmpty && pat.isPrefixOf (c :: t) then
      removeAllFuel fuel pat ((c :: t).drop pat.length)
    else
      c :: removeAllFuel fuel pat t

/-- Python `s.replace(pat, "")` for non-empty `pat`: delete every
non-overlapping occurrence of `pat`, scanning left to right. -/
def removeAll (pat l : PyStr) : PyStr :=
  removeAllFuel (l.length + 1) pat l

/-- Python `s.split()`: split on whitespace runs, discarding empty pieces. -/
def pyWords (l : PyStr) : List PyStr :=
  (splitP isPySpace l).filter (fun w => !w.isEmpty)

/-- Python `s.lower()` on the ASCII range, character by character. -/
def pyLower (l : PyStr) : PyStr :=
  l.map Char.toLower

/-- Python `s.endswith(suf)`. -/
def pyEndsWith (suf l : PyStr) : Bool :=
  suf.isSuffixOf l

/-- Drop the maximal trailing run of word characters. -/
def dropTrailingWordRun (l : PyStr) : PyStr :=
  (l.reverse.dropWhile isWordChar).reverse

/-- Python `re.sub(r"\x5cb\x5cw+$", "", l)`: remove the maximal trailing run
of word characters; as in Python, `$` also matches just before a single final
newline, so a word run sitting directly before a lone final newline is
removed as well. -/
def reSubTrailingWord (l : PyStr) : PyStr :=
  if l.getLast? == some '\n' then dropTrailingWordRun l.dropLast ++ ['\n']
  else dropTrailingWordRun l

/-! ## The pipeline (from `triadic_agent.py`) -/

/-- Banned subjective/perceptual terms of `sanitize_explanation`
(`triadic_agent.py` lines 84-87). -/
def bannedExplanationTerms : List PyStr :=
  ["perceive".toList, "interpreted".toList, "heard as".toList, "listener".toList,
   "music".toList, "emotion".toList, "harmony".toList, "experience".toList,
   "sensation".toList]

/-- Sequential `clean = clean.replace(b, "")` over a banned-term list
(`triadic_agent.py` lines 88-89). -/
def applyBans (banned : List PyStr) (s : PyStr) : PyStr :=
  banned.foldl (fun acc b => removeAll b acc) s

/-- `TriadicAgent.sanitize_explanation` (`triadic_agent.py` lines 70-91):
regex-drop a trailing word run, strip, enforce a final period, collapse lines
into one space-joined string, delete banned terms, strip. -/
def sanitize_explanation (explanation : PyStr) : PyStr :=
  let e1 := pyStrip (reSubTrailingWord explanation)
  let e2 := if pyEndsWith ['.'] e1 then e1 else e1 ++ ['.']
  let lines := ((splitP (· == '\n') e2).map pyStrip).filter (fun l => !l.isEmpty)
  let clean := joinSep [' '] lines
  pyStrip (applyBans bannedExplanationTerms clean)

/-- Bullet/markup characters stripped from candidate lines,
Python `l.strip(" -*•\x5ct")` (`triadic_agent.py` lines 130 and 210). -/
def bulletChars : List Char :=
  [' ', '-', '*', '•', '\t']

/-- Banned process/abstraction substrings of the negative-stage hard filter
(`triadic_agent.py` lines 133-138). -/
def negBanned : List PyStr :=
  ["wave".toList, "propagation".toList, "disturbance".toList, "region".toList,
   "pattern".toList, "flow".toList, "motion".toList, "compression".toList,
   "rarefaction".toList, "nearby".toList, "neighboring".toList, "process".toList,
   "interaction".toList]

/-- Bare property terms of the negative-stage filter
(`triadic_agent.py` line 149). -/
def propertyKeywords : List PyStr :=
  ["density".toList, "energy".toList, "force".toList]

/-- Candidate parsing of `extract_negative` (`triadic_agent.py` line 130):
one candidate per non-blank line, bullet-stripped and lower-cased. -/
def parseNegItems (raw : PyStr) : List PyStr :=
  ((pySplitLines raw).filter (fun l => !(pyStrip l).isEmpty)).map
    (fun l => pyLower (pyStripChars bulletChars l))

/-- The hard filter of `extract_negative` (`triadic_agent.py` lines 140-153):
a candidate survives when it contains no banned substring, has at most 3
whitespace-delimited words, and neither equals a property keyword nor
contains a property keyword followed by a space. -/
def negKeep (item : PyStr) : Bool :=
  !(negBanned.any (fun b => isSubOf b item)) &&
  !(decide (3 < (pyWords item).length)) &&
  !(propertyKeywords.any (fun pk => pk == item || isSubOf (pk ++ [' ']) item))

/-- `TriadicAgent.extract_negative` (`triadic_agent.py` lines 113-155),
applied to the raw text returned by the model call. -/
def extract_negative (raw : PyStr) : List PyStr :=
  ((parseNegItems raw).filter negKeep).take 10

/-- `TriadicAgent.extract_neutral` (`triadic_agent.py` lines 161-181),
applied to the raw text returned by the model call: one item per non-blank
line, stripped, trailing periods removed, then a single period re-appended. -/
def extract_neutral (raw : PyStr) : List PyStr :=
  ((pySplitLines raw).filter (fun l => !(pyStrip l).isEmpty)).map
    (fun l => pyRstripChars ['.'] (pyStrip l) ++ ['.'])

/-- Banned causal verbs of the positive-stage light filter
(`triadic_agent.py` lines 213-215). -/
def bannedCausalVerbs : List PyStr :=
  ["creates".toList, "leads to".toList, "results in".toList, "causes".toList,
   "produces".toList]

/-- `TriadicAgent.extract_positive` (`triadic_agent.py` lines 187-225),
applied to the neutral list and the raw text returned by the model call:
parse bullet-stripped non-blank lines, drop lines whose lower-cased form
contains a banned causal verb, truncate to the length of `neutral`. -/
def extract_positive (neutral : List PyStr) (raw : PyStr) : List PyStr :=
  let items := ((pySplitLines raw).filter (fun l => !(pyStrip l).isEmpty)).map
    (fun l => pyStripChars bulletChars l)
  (items.filter
    (fun it => !(bannedCausalVerbs.any (fun b => isSubOf b (pyLower it))))).take
    neutral.length

/-- Diagnostic message emitted when the negative list is empty. -/
def msgNegFail : PyStr := "NEGATIVE extraction failed.".toList

/-- Diagnostic message emitted when the neutral list is empty. -/
def msgNeuFail : PyStr := "NEUTRAL extraction failed.".toList

/-- Diagnostic message emitted when the positive list is empty. -/
def msgPosFail : PyStr := "POSITIVE extraction failed.".toList

/-- Diagnostic message emitted when the neutral and positive lengths differ. -/
def msgMismatch : PyStr := "NEU/POS mismatch.".toList

/-- `TriadicAgent.analyze` (`triadic_agent.py` lines 231-241): the sequential
conditional appends are embedded as a concatenation of conditional
singletons, in the source's order. -/
def analyze (neg neu pos : List PyStr) : List PyStr :=
  (if neg.isEmpty then [msgNegFail] else []) ++
  (if neu.isEmpty then [msgNeuFail] else []) ++
  (if pos.isEmpty then [msgPosFail] else []) ++
  (if neu.length != pos.length then [msgMismatch] else [])

/-- Model identifier used for the explanation and neutral calls. -/
def modelR1 : PyStr := "deepseek/deepseek-r1".toList

/-- Model identifier used for the negative and positive calls. -/
def model4oMini : PyStr := "openai/gpt-4o-mini".toList

/-- Prompt of `build_explanation` (`triadic_agent.py` lines 98-105). -/
def explanationPrompt (topic : PyStr) : PyStr :=
  "\nExplain the topic below in 3–6 sentences using ONLY physical causality:\n\n\"\"\"".toList
  ++ topic ++
  "\"\"\"\n\nNo metaphor, no interpretation, no subjective description.\nPure physical sequence of events.\n".toList

/-- Prompt of `extract_negative` (`triadic_agent.py` lines 114-128). -/
def negativePrompt (explanation : PyStr) : PyStr :=
  "\nExtract ONLY the physical initial components that exist BEFORE any process begins.\n\nRules:\n- MUST be concrete objects, particles, energies, or measurable physical states.\n- NO actions, NO processes, NO outcomes.\n- NO abstract nouns (like \"disturbance\", \"propagation\", \"region\", \"speed\").\n- 4–10 items MAX.\n- Very strict physical filtering.\n\nEXPLANATION:\n\"\"\"".toList
  ++ explanation ++
  "\"\"\"\n\nOutput as a simple list, one item per line.\n".toList

/-- Prompt of `extract_neutral` (`triadic_agent.py` lines 163-179). -/
def neutralPrompt (negative : List PyStr) : PyStr :=
  "\nGenerate 4–8 NEUTRAL mechanisms describing HOW these physical components interact.\n\nRules:\n- One sentence per line.\n- Must reference AT LEAST TWO items from the NEGATIVE list.\n- Pure causal mechanisms.\n- No outcomes.\n- No future consequences.\n\nNEGATIVE LIST:\n".toList
  ++ joinSep ['\n'] (negative.map (fun n => "- ".toList ++ n)) ++
  "\n\nWrite only the mechanisms.\n".toList

/-- Prompt of `extract_positive` (`triadic_agent.py` lines 189-208). -/
def positivePrompt (neutral : List PyStr) : PyStr :=
  "\nTransform each NEUTRAL mechanism into a REALIZED STATE.\n\nRules:\n- One item per line.\n- MUST be either:\n    (a) pure noun phrase, OR\n    (b) passive-perfect realized condition (\"is established\", \"is stabilized\", \"is present\", \"is formed\", \"is maintained\").\n- NO high-level causal verbs: no creates, leads to, results in, causes, produces.\n- MUST represent a completed physical condition that exists AFTER the mechanism.\n- DO NOT restate or paraphrase the neutral mechanism word-for-word.\n- Prefer stable state descriptions like \"a region of X is present\", \"Y is established\", \"Z pattern exists\".\n\nNEUTRAL MECHANISMS:\n".toList
  ++ joinSep ['\n'] (neutral.map (fun n => "- ".toList ++ n)) ++
  "\n\nOutput one realized state per line, same order.\n".toList

/-- The `TriadicResult` dataclass (`triadic_agent.py` lines 27-34). -/
structure TriadicResult where
  topic : PyStr
  explanation : PyStr
  negative : List PyStr
  neutral : List PyStr
  positive : List PyStr
  diagnostics : List PyStr

/-- `TriadicAgent.run` (`triadic_agent.py` lines 247-256).  The gateway is an
oracle mapping (model, prompt) to the stripped response text; alongside the
result, the list of gateway invocations is returned in call order. -/
def run (oracle : PyStr → PyStr → PyStr) (topic : PyStr) :
    TriadicResult × List (PyStr × PyStr) :=
  let p1 := explanationPrompt topic
  let explanation := sanitize_explanation (oracle modelR1 p1)
  let p2 := negativePrompt explanation
  let negative := extract_negative (oracle model4oMini p2)
  let p3 := neutralPrompt negative
  let neutral := extract_neutral (oracle modelR1 p3)
  let p4 := positivePrompt neutral
  let positive := extract_positive neutral (oracle model4oMini p4)
  let diags := analyze negative neutral positive
  (⟨topic, explanation, negative, neutral, positive, diags⟩,
   [(modelR1, p1), (model4oMini, p2), (modelR1, p3), (model4oMini, p4)])

/-- Observable used to state the neutral-stage formatting property: the
string ends with a period and the character before that period (when there
is one) is not itself a period. -/
def endsWithExactlyOneDot (l : PyStr) : Bool :=
  (l.getLast? == some '.') && !(l.dropLast.getLast? == some '.')

/-! ## Helper lemmas about the string primitives -/

theorem getLast?_cons_of_getLast? {α : Type} (x : α) {l : List α} {d : α}
    (h : l.getLast? = some d) : (x :: l).getLast? = some d := by
  cases l with
  | nil => simp at h
  | cons a as => rw [List.getLast?_cons_cons]; exact h

theorem splitP_cons_eq (p : Char → Bool) (c : Char) (rest : PyStr) {h1 : PyStr}
    {t : List PyStr} (hres : splitP p rest = h1 :: t) :
    splitP p (c :: rest) = if p c then [] :: h1 :: t else (c :: h1) :: t := by
  simp only [splitP, hres]

theorem splitP_ne_nil (p : Char → Bool) : ∀ l : PyStr, splitP p l ≠ [] := by
  intro l
  induction l with
  | nil => simp [splitP]
  | cons c rest ih =>
    cases h : splitP p rest with
    | nil => exact absurd h ih
    | cons h1 t =>
      rw [splitP_cons_eq p c rest h]
      split <;> simp

theorem sep_not_mem_splitP (p : Char → Bool) :
    ∀ l chunk, chunk ∈ splitP p l → ∀ c ∈ chunk, p c = false := by
  intro l
  induction l with
  | nil =>
    intro chunk hc c hcc
    simp [splitP] at hc
    subst hc
    simp at hcc
  | cons x rest ih =>
    intro chunk hc c hcc
    cases h : splitP p rest with
    | nil => exact absurd h (splitP_ne_nil p rest)
    | cons h1 t =>
      rw [splitP_cons_eq p x rest h] at hc
      by_cases hx : p x = true
      · rw [if_pos hx] at hc
        rcases List.mem_cons.mp hc with h0 | hmem
        · subst h0; exact absurd hcc (List.not_mem_nil c)
        · exact ih chunk (by rw [h]; exact hmem) c hcc
      · rw [if_neg hx] at hc
        rcases List.mem_cons.mp hc with h0 | hmem
        · subst h0
          rcases List.mem_cons.mp hcc with h2 | h2
          · subst h2; simpa using hx
          · exact ih h1 (by rw [h]; exact List.mem_cons_self h1 t) c h2
        · exact ih chunk (by rw [h]; exact List.mem_cons_of_mem h1 hmem) c hcc

theorem splitP_eq_single (p : Char → Bool) :
    ∀ l, (∀ c ∈ l, p c = false) → splitP p l = [l] := by
  intro l
  induction l with
  | nil => intro _; rfl
  | cons x rest ih =>
    intro hall
    have hrest : splitP p rest = [rest] :=
      ih (fun c hc => hall c (List.mem_cons_of_mem x hc))
    rw [splitP_cons_eq p x rest hrest]
    simp [hall x (List.mem_cons_self x rest)]

theorem splitP_getLast (p : Char → Bool) :
    ∀ l d, l.getLast? = some d → p d = false →
      ∃ lc, (splitP p l).getLast? = some lc ∧ lc.getLast? = some d := by
  intro l
  induction l with
  | nil => intro d hd _; simp at hd
  | cons x rest ih =>
    intro d hd hpd
    cases rest with
    | nil =>
      have hx : x = d := by simpa using hd
      subst hx
      refine ⟨[x], ?_, by simp⟩
      simp [splitP, hpd]
    | cons y ys =>
      have hd' : (y :: ys).getLast? = some d := by
        rw [← List.getLast?_cons_cons (a := x)]; exact hd
      obtain ⟨lc, hlc1, hlc2⟩ := ih d hd' hpd
      cases h : splitP p (y :: ys) with
      | nil => exact absurd h (splitP_ne_nil p _)
      | cons h1 t =>
        rw [h] at hlc1
        rw [splitP_cons_eq p x (y :: ys) h]
        by_cases hx : p x = true
        · refine ⟨lc, ?_, hlc2⟩
          rw [if_pos hx, List.getLast?_cons_cons]
          exact hlc1
        · rw [if_neg hx]
          cases t with
          | nil =>
            have h1lc : h1 = lc := by simpa using hlc1
            subst h1lc
            exact ⟨x :: h1, by simp, getLast?_cons_of_getLast? x hlc2⟩
          | cons t1 ts =>
            refine ⟨lc, ?_, hlc2⟩
            rw [List.getLast?_cons_cons] at hlc1 ⊢
            exact hlc1

theorem dropWhile_eq_self_of_head? {α : Type} (p : α → Bool) {l : List α} {c : α}
    (hc : l.head? = some c) (hpc : p c = false) : l.dropWhile p = l := by
  cases l with
  | nil => rfl
  | cons x xs =>
    have hx : x = c := by simpa using hc
    subst hx
    simp [List.dropWhile_cons, hpc]

theorem head?_dropWhile_false {α : Type} (p : α → Bool) (l : List α) {c : α}
    (hc : (l.dropWhile p).head? = some c) : p c = false := by
  have h := List.head?_dropWhile_not p l
  rw [hc] at h
  exact h

theorem getLast?_dropWhile_of_ne_nil {α : Type} (p : α → Bool) (l : List α)
    (h : l.dropWhile p ≠ []) : (l.dropWhile p).getLast? = l.getLast? := by
  conv_rhs => rw [← List.takeWhile_append_dropWhile (p := p) (l := l)]
  cases hd : (l.dropWhile p).getLast? with
  | none => exact absurd (List.getLast?_eq_none_iff.mp hd) h
  | some a => rw [List.getLast?_append, hd]; rfl

theorem dropWhile_ne_nil_of_getLast? {α : Type} (p : α → Bool) {l : List α} {c : α}
    (hc : l.getLast? = some c) (hpc : p c = false) : l.dropWhile p ≠ [] := by
  intro hnil
  have hall := List.dropWhile_eq_nil_iff.mp hnil
  have hcm : c ∈ l := by
    obtain ⟨ys, rfl⟩ := List.getLast?_eq_some_iff.mp hc
    simp
  rw [hall c hcm] at hpc
  exact absurd hpc (by simp)

theorem mem_dropWhile_subset {α : Type} (p : α → Bool) (l : List α) {c : α}
    (hc : c ∈ l.dropWhile p) : c ∈ l :=
  List.dropWhile_subset p hc

theorem pyStrip_getLast_of_not_space {l : PyStr} {c : Char}
    (hc : l.getLast? = some c) (hpc : isPySpace c = false) :
    (pyStrip l).getLast? = some c := by
  unfold pyStrip
  have h1 : l.dropWhile isPySpace ≠ [] := dropWhile_ne_nil_of_getLast? _ hc hpc
  have h2 : (l.dropWhile isPySpace).getLast? = some c := by
    rw [getLast?_dropWhile_of_ne_nil _ _ h1]; exact hc
  have h3 : (l.dropWhile isPySpace).reverse.head? = some c := by
    rw [List.head?_reverse]; exact h2
  rw [dropWhile_eq_self_of_head? _ h3 hpc, List.getLast?_reverse, List.head?_reverse]
  exact h2

theorem head?_pyStrip_not_space {l : PyStr} {c : Char}
    (hc : (pyStrip l).head? = some c) : isPySpace c = false := by
  unfold pyStrip at hc
  rw [List.head?_reverse] at hc
  set m := (l.dropWhile isPySpace).reverse with hm
  have hne : m.dropWhile isPySpace ≠ [] := by
    intro hnil; rw [hnil] at hc; simp at hc
  rw [getLast?_dropWhile_of_ne_nil _ _ hne] at hc
  rw [hm, List.getLast?_reverse] at hc
  exact head?_dropWhile_false _ _ hc

theorem getLast?_pyStrip_not_space {l : PyStr} {c : Char}
    (hc : (pyStrip l).getLast? = some c) : isPySpace c = false := by
  unfold pyStrip at hc
  rw [List.getLast?_reverse] at hc
  exact head?_dropWhile_false _ _ hc

theorem pyStrip_eq_self {l : PyStr}
    (hh : ∀ c, l.head? = some c → isPySpace c = false)
    (hl : ∀ c, l.getLast? = some c → isPySpace c = false) : pyStrip l = l := by
  cases hhead : l.head? with
  | none =>
    have : l = [] := by simpa using hhead
    subst this; rfl
  | some c =>
    unfold pyStrip
    rw [dropWhile_eq_self_of_head? _ hhead (hh c hhead)]
    cases hlast : l.getLast? with
    | none =>
      have : l = [] := by simpa using hlast
      subst this; rfl
    | some d =>
      have : l.reverse.head? = some d := by rw [List.head?_reverse]; exact hlast
      rw [dropWhile_eq_self_of_head? _ this (hl d hlast), List.reverse_reverse]

theorem pyStrip_idem (l : PyStr) : pyStrip (pyStrip l) = pyStrip l :=
  pyStrip_eq_self (fun _ hc => head?_pyStrip_not_space hc)
    (fun _ hc => getLast?_pyStrip_not_space hc)

theorem mem_pyStrip_subset {l : PyStr} {c : Char} (hc : c ∈ pyStrip l) : c ∈ l := by
  unfold pyStrip at hc
  rw [List.mem_reverse] at hc
  have h1 := mem_dropWhile_subset _ _ hc
  rw [List.mem_reverse] at h1
  exact mem_dropWhile_subset _ _ h1

theorem getLast?_joinSep (sep : PyStr) :
    ∀ (ls : List PyStr) (lc : PyStr) (d : Char), ls.getLast? = some lc →
      lc.getLast? = some d → (joinSep sep ls).getLast? = some d := by
  intro ls
  induction ls with
  | nil => intro lc d h _; simp at h
  | cons x t ih =>
    intro lc d hls hlc
    cases t with
    | nil =>
      have hx : x = lc := by simpa using hls
      subst hx
      exact hlc
    | cons y rest =>
      have hls' : (y :: rest).getLast? = some lc := by
        rw [← List.getLast?_cons_cons (a := x)]; exact hls
      have hj := ih lc d hls' hlc
      show ((x ++ sep) ++ joinSep sep (y :: rest)).getLast? = some d
      rw [List.getLast?_append, hj]
      rfl

theorem mem_joinSep (sep : PyStr) :
    ∀ (ls : List PyStr) (c : Char), c ∈ joinSep sep ls →
      (∃ m ∈ ls, c ∈ m) ∨ c ∈ sep := by
  intro ls
  induction ls with
  | nil => intro c hc; simp [joinSep] at hc
  | cons x t ih =>
    intro c hc
    cases t with
    | nil => exact Or.inl ⟨x, List.mem_cons_self x [], hc⟩
    | cons y rest =>
      have hc' : c ∈ (x ++ sep) ++ joinSep sep (y :: rest) := hc
      rcases List.mem_append.mp hc' with h | h
      · rcases List.mem_append.mp h with h | h
        · exact Or.inl ⟨x, List.mem_cons_self x _, h⟩
        · exact Or.inr h
      · rcases ih c h with ⟨m, hm, hcm⟩ | h
        · exact Or.inl ⟨m, List.mem_cons_of_mem x hm, hcm⟩
        · exact Or.inr h

theorem getLast?_filter_of_pos (q : PyStr → Bool) :
    ∀ (l : List PyStr) (a : PyStr), l.getLast? = some a → q a = true →
      (l.filter q).getLast? = some a := by
  intro l
  induction l with
  | nil => intro a h _; simp at h
  | cons x t ih =>
    intro a hl hq
    cases t with
    | nil =>
      have hx : x = a := by simpa using hl
      subst hx
      simp [List.filter_cons, hq]
    | cons y rest =>
      have hl' : (y :: rest).getLast? = some a := by
        rw [← List.getLast?_cons_cons (a := x)]; exact hl
      have hrec := ih a hl' hq
      rw [List.filter_cons]
      split
      · exact getLast?_cons_of_getLast? x hrec
      · exact hrec

theorem getLast?_drop_of_lt {α : Type} {n : Nat} {l : List α} (h : n < l.length) :
    (l.drop n).getLast? = l.getLast? := by
  conv_rhs => rw [← List.take_append_drop n l]
  cases hd : (l.drop n).getLast? with
  | none =>
    have : l.length ≤ n := List.drop_eq_nil_iff.mp (List.getLast?_eq_none_iff.mp hd)
    omega
  | some a => rw [List.getLast?_append, hd]; rfl

theorem pyEndsWith_singleton (c : Char) (l : PyStr) :
    pyEndsWith [c] l = true ↔ l.getLast? = some c := by
  unfold pyEndsWith
  rw [List.isSuffixOf_iff_suffix, List.getLast?_eq_some_iff]
  constructor
  · rintro ⟨t, ht⟩; exact ⟨t, ht.symm⟩
  · rintro ⟨t, ht⟩; exact ⟨t, ht.symm⟩

theorem getLast?_pyRstripChars {cs : List Char} {m : PyStr} {c : Char}
    (hc : (pyRstripChars cs m).getLast? = some c) : cs.contains c = false := by
  unfold pyRstripChars at hc
  rw [List.getLast?_reverse] at hc
  exact head?_dropWhile_false _ _ hc

theorem removeAllFuel_nil (fuel : Nat) (pat : PyStr) : removeAllFuel fuel pat [] = [] := by
  cases fuel <;> rfl

theorem removeAllFuel_of_not_sub {pat : PyStr} :
    ∀ (fuel : Nat) (l : PyStr), l.length < fuel → isSubOf pat l = false →
      removeAllFuel fuel pat l = l := by
  intro fuel
  induction fuel with
  | zero => intro l _ _; rfl
  | succ f ih =>
    intro l hlen hsub
    cases l with
    | nil => rfl
    | cons c t =>
      simp only [isSubOf, Bool.or_eq_false_iff] at hsub
      obtain ⟨h1, h2⟩ := hsub
      show (if !pat.isEmpty && pat.isPrefixOf (c :: t) then
        removeAllFuel f pat ((c :: t).drop pat.length)
        else c :: removeAllFuel f pat t) = c :: t
      rw [h1, Bool.and_false, if_neg (by simp)]
      have ht : t.length < f := by simp at hlen; omega
      rw [ih t ht h2]

theorem removeAllFuel_getLast {pat : PyStr} {d : Char} (hd : d ∉ pat) :
    ∀ (fuel : Nat) (l : PyStr), l.length < fuel → l.getLast? = some d →
      (removeAllFuel fuel pat l).getLast? = some d := by
  intro fuel
  induction fuel with
  | zero => intro l _ hl; exact hl
  | succ f ih =>
    intro l hlen hlast
    cases l with
    | nil => simp at hlast
    | cons c t =>
      show (if !pat.isEmpty && pat.isPrefixOf (c :: t) then
        removeAllFuel f pat ((c :: t).drop pat.length)
        else c :: removeAllFuel f pat t).getLast? = some d
      by_cases hp : (!pat.isEmpty && pat.isPrefixOf (c :: t)) = true
      · rw [if_pos hp]
        have hp' : (!pat.isEmpty) = true ∧ pat.isPrefixOf (c :: t) = true := by
          simpa using hp
        obtain ⟨hne, hpre⟩ := hp'
        have hppre : pat <+: (c :: t) := List.isPrefixOf_iff_prefix.mp hpre
        have hplen : pat.length < (c :: t).length := by
          rcases Nat.lt_or_ge pat.length (c :: t).length with h | h
          · exact h
          · exfalso
            have hpeq : pat = c :: t := hppre.eq_of_length_le h
            have hdmem : d ∈ c :: t := by
              obtain ⟨ys, hys⟩ := List.getLast?_eq_some_iff.mp hlast
              rw [hys]; simp
            exact hd (hpeq ▸ hdmem)
        have hpat1 : 1 ≤ pat.length := by
          cases hpat : pat with
          | nil => rw [hpat] at hne; simp at hne
          | cons a as => simp
        have hrest : ((c :: t).drop pat.length).getLast? = some d := by
          rw [getLast?_drop_of_lt hplen]; exact hlast
        have hrestlen : ((c :: t).drop pat.length).length < f := by
          rw [List.length_drop]
          simp only [List.length_cons] at hplen hlen ⊢
          omega
        exact ih _ hrestlen hrest
      · rw [if_neg hp]
        cases t with
        | nil =>
          have hcd : c = d := by simpa using hlast
          subst hcd
          rw [removeAllFuel_nil]
          simp
        | cons y ys =>
          have hlast' : (y :: ys).getLast? = some d := by
            rw [← List.getLast?_cons_cons (a := c)]; exact hlast
          have hlen' : (y :: ys).length < f := by
            simp only [List.length_cons] at hlen ⊢; omega
          exact getLast?_cons_of_getLast? c (ih _ hlen' hlast')

theorem removeAllFuel_mem {pat : PyStr} {x : Char} :
    ∀ (fuel : Nat) (l : PyStr), x ∈ removeAllFuel fuel pat l → x ∈ l := by
  intro fuel
  induction fuel with
  | zero => intro l h; exact h
  | succ f ih =>
    intro l hmem
    cases l with
    | nil => rw [removeAllFuel_nil] at hmem; simp at hmem
    | cons c t =>
      have hmem' : x ∈ (if !pat.isEmpty && pat.isPrefixOf (c :: t) then
        removeAllFuel f pat ((c :: t).drop pat.length)
        else c :: removeAllFuel f pat t) := hmem
      split at hmem'
      · exact List.drop_subset _ _ (ih _ hmem')
      · rcases List.mem_cons.mp hmem' with h | h
        · exact h ▸ List.mem_cons_self c t
        · exact List.mem_cons_of_mem c (ih _ h)

theorem removeAll_of_not_sub {pat l : PyStr} (h : isSubOf pat l = false) :
    removeAll pat l = l :=
  removeAllFuel_of_not_sub _ l (Nat.lt_succ_self _) h

theorem removeAll_getLast {pat l : PyStr} {d : Char} (hd : d ∉ pat)
    (hl : l.getLast? = some d) : (removeAll pat l).getLast? = some d :=
  removeAllFuel_getLast hd _ l (Nat.lt_succ_self _) hl

theorem removeAll_mem {pat l : PyStr} {x : Char} (h : x ∈ removeAll pat l) : x ∈ l :=
  removeAllFuel_mem _ l h

theorem applyBans_of_not_sub :
    ∀ (banned : List PyStr) (s : PyStr), (∀ b ∈ banned, isSubOf b s = false) →
      applyBans banned s = s := by
  intro banned
  induction banned with
  | nil => intro s _; rfl
  | cons b bs ih =>
    intro s hall
    show applyBans bs (removeAll b s) = s
    rw [removeAll_of_not_sub (hall b (List.mem_cons_self b bs))]
    exact ih s (fun p hp => hall p (List.mem_cons_of_mem b hp))

theorem applyBans_getLast {d : Char} :
    ∀ (banned : List PyStr) (s : PyStr), (∀ b ∈ banned, d ∉ b) →
      s.getLast? = some d → (applyBans banned s).getLast? = some d := by
  intro banned
  induction banned with
  | nil => intro s _ hl; exact hl
  | cons b bs ih =>
    intro s hall hl
    show (applyBans bs (removeAll b s)).getLast? = some d
    exact ih _ (fun p hp => hall p (List.mem_cons_of_mem b hp))
      (removeAll_getLast (hall b (List.mem_cons_self b bs)) hl)

theorem applyBans_mem {x : Char} :
    ∀ (banned : List PyStr) (s : PyStr), x ∈ applyBans banned s → x ∈ s := by
  intro banned
  induction banned with
  | nil => intro s h; exact h
  | cons b bs ih =>
    intro s hmem
    exact removeAll_mem (ih (removeAll b s) hmem)

theorem char_toNat_ofNat {n : Nat} (h : n.isValidChar) : (Char.ofNat n).toNat = n := by
  simp [Char.ofNat, h, Char.ofNatAux, Char.toNat, UInt32.toNat, BitVec.toNat_ofNatLt]

theorem char_toLower_idem (c : Char) : c.toLower.toLower = c.toLower := by
  by_cases h : c.toNat ≥ 65 ∧ c.toNat ≤ 90
  · have hvalid : (c.toNat + 32).isValidChar := Or.inl (by omega)
    have h1 : c.toLower = Char.ofNat (c.toNat + 32) := by
      simp only [Char.toLower]
      rw [if_pos h]
    have h2 : (Char.ofNat (c.toNat + 32)).toLower = Char.ofNat (c.toNat + 32) := by
      simp only [Char.toLower]
      rw [if_neg (by rw [char_toNat_ofNat hvalid]; omega)]
    rw [h1, h2]
  · have h1 : c.toLower = c := by
      simp only [Char.toLower]
      rw [if_neg h]
    simp [h1]

theorem pyLower_idem (l : PyStr) : pyLower (pyLower l) = pyLower l := by
  unfold pyLower
  rw [List.map_map]
  exact List.map_congr_left (fun c _ => char_toLower_idem c)

theorem joinSep_single (sep x : PyStr) : joinSep sep [x] = x := rfl

theorem sanitize_explanation_def (s : PyStr) :
    sanitize_explanation s =
      pyStrip (applyBans bannedExplanationTerms (joinSep [' ']
        (((splitP (· == '\n')
            (if pyEndsWith ['.'] (pyStrip (reSubTrailingWord s))
             then pyStrip (reSubTrailingWord s)
             else pyStrip (reSubTrailingWord s) ++ ['.'])).map pyStrip).filter
          (fun l => !l.isEmpty)))) := rfl

theorem enforceDot_getLast (e1 : PyStr) :
    (if pyEndsWith ['.'] e1 then e1 else e1 ++ ['.']).getLast? = some '.' := by
  by_cases h : pyEndsWith ['.'] e1 = true
  · rw [if_pos h]; exact (pyEndsWith_singleton '.' e1).mp h
  · rw [if_neg h]; exact List.getLast?_concat e1

theorem sanitize_explanation_getLast (s : PyStr) :
    (sanitize_explanation s).getLast? = some '.' := by
  rw [sanitize_explanation_def]
  have h2 := enforceDot_getLast (pyStrip (reSubTrailingWord s))
  obtain ⟨lc, hlc1, hlc2⟩ := splitP_getLast (· == '\n') _ '.' h2 (by decide)
  have hmap : ((splitP (· == '\n')
      (if pyEndsWith ['.'] (pyStrip (reSubTrailingWord s))
       then pyStrip (reSubTrailingWord s)
       else pyStrip (reSubTrailingWord s) ++ ['.'])).map pyStrip).getLast? =
      some (pyStrip lc) := by
    rw [List.getLast?_map, hlc1]; rfl
  have hstriplc : (pyStrip lc).getLast? = some '.' :=
    pyStrip_getLast_of_not_space hlc2 (by decide)
  have hne : (!(pyStrip lc).isEmpty) = true := by
    cases hsl : pyStrip lc with
    | nil => rw [hsl] at hstriplc; simp at hstriplc
    | cons a as => rfl
  have hfilter := getLast?_filter_of_pos (fun l => !l.isEmpty) _ _ hmap hne
  have hclean := getLast?_joinSep [' '] _ _ _ hfilter hstriplc
  have hdotban : ∀ b ∈ bannedExplanationTerms, '.' ∉ b := by decide
  have hbans := applyBans_getLast bannedExplanationTerms _ hdotban hclean
  exact pyStrip_getLast_of_not_space hbans (by decide)

theorem sanitize_explanation_ne_nil (s : PyStr) : sanitize_explanation s ≠ [] := by
  intro hnil
  have h := sanitize_explanation_getLast s
  rw [hnil] at h
  simp at h

theorem sanitize_explanation_no_newline (s : PyStr) : '\n' ∉ sanitize_explanation s := by
  rw [sanitize_explanation_def]
  intro hmem
  have h1 := applyBans_mem _ _ (mem_pyStrip_subset hmem)
  rcases mem_joinSep [' '] _ _ h1 with ⟨m, hm, hcm⟩ | hsep
  · have hm' := List.mem_of_mem_filter hm
    obtain ⟨chunk, hchunk, hmeq⟩ := List.mem_map.mp hm'
    have hcc : '\n' ∈ chunk := mem_pyStrip_subset (hmeq ▸ hcm)
    have := sep_not_mem_splitP (· == '\n') _ chunk hchunk '\n' hcc
    simp at this
  · simp at hsep

theorem pyStrip_sanitize_explanation (s : PyStr) :
    pyStrip (sanitize_explanation s) = sanitize_explanation s := by
  rw [sanitize_explanation_def]
  exact pyStrip_idem _

theorem reSubTrailingWord_of_getLast_dot {t : PyStr} (hdot : t.getLast? = some '.') :
    reSubTrailingWord t = t := by
  unfold reSubTrailingWord
  rw [hdot]
  rw [if_neg (by decide)]
  unfold dropTrailingWordRun
  have hh : t.reverse.head? = some '.' := by rw [List.head?_reverse]; exact hdot
  rw [dropWhile_eq_self_of_head? _ hh (by decide), List.reverse_reverse]

theorem sanitize_explanation_fixed {t : PyStr} (hdot : t.getLast? = some '.')
    (hnl : '\n' ∉ t) (hstrip : pyStrip t = t)
    (hban : ∀ b ∈ bannedExplanationTerms, isSubOf b t = false) :
    sanitize_explanation t = t := by
  rw [sanitize_explanation_def]
  rw [reSubTrailingWord_of_getLast_dot hdot, hstrip]
  have hEnds : pyEndsWith ['.'] t = true := (pyEndsWith_singleton '.' t).mpr hdot
  rw [if_pos hEnds]
  have hsplit : splitP (· == '\n') t = [t] := splitP_eq_single _ t (fun c hc => by
    cases hcn : (c == '\n') with
    | false => rfl
    | true =>
      exfalso
      have hce : c = '\n' := by simpa using hcn
      exact hnl (hce ▸ hc))
  rw [hsplit]
  simp only [List.map_cons, List.map_nil, hstrip]
  have htne : (!t.isEmpty) = true := by
    cases ht : t with
    | nil => rw [ht] at hdot; simp at hdot
    | cons a as => rfl
  simp only [List.filter_cons, List.filter_nil, htne, if_true]
  rw [joinSep_single]
  rw [applyBans_of_not_sub bannedExplanationTerms t hban, hstrip]

/-! ## Claim theorems -/

theorem mem_ite_singleton {α : Type} {c : Prop} [Decidable c] {a x : α} :
    (a ∈ if c then [x] else []) ↔ c ∧ a = x := by
  split <;> rename_i hc <;> simp [hc]

theorem ite_singleton_eq_nil {α : Type} {c : Prop} [Decidable c] {x : α} :
    ((if c then [x] else []) = []) ↔ ¬c := by
  split <;> rename_i hc <;> simp [hc]

theorem analyze_sublist_msgs (neg neu pos : List PyStr) :
    (analyze neg neu pos).Sublist [msgNegFail, msgNeuFail, msgPosFail, msgMismatch] := by
  show ((if neg.isEmpty then [msgNegFail] else []) ++
    (if neu.isEmpty then [msgNeuFail] else []) ++
    (if pos.isEmpty then [msgPosFail] else []) ++
    (if neu.length != pos.length then [msgMismatch] else [])).Sublist
      ([msgNegFail] ++ [msgNeuFail] ++ [msgPosFail] ++ [msgMismatch])
  refine List.Sublist.append (List.Sublist.append (List.Sublist.append ?_ ?_) ?_) ?_ <;>
    (split <;> simp)

/-- C1: the diagnostics returned by `analyze` contain each of the four
messages exactly under its stated condition, appear in the fixed source
order with no other messages, and are empty exactly when all three lists
are non-empty and neutral/positive have equal length. -/
theorem analyze_diagnostics_complete (neg neu pos : List PyStr) :
    (msgNegFail ∈ analyze neg neu pos ↔ neg = []) ∧
    (msgNeuFail ∈ analyze neg neu pos ↔ neu = []) ∧
    (msgPosFail ∈ analyze neg neu pos ↔ pos = []) ∧
    (msgMismatch ∈ analyze neg neu pos ↔ neu.length ≠ pos.length) ∧
    (analyze neg neu pos).Sublist [msgNegFail, msgNeuFail, msgPosFail, msgMismatch] ∧
    (analyze neg neu pos = [] ↔
      (neg ≠ [] ∧ neu ≠ [] ∧ pos ≠ [] ∧ neu.length = pos.length)) := by
  have d12 : msgNegFail ≠ msgNeuFail := by decide
  have d13 : msgNegFail ≠ msgPosFail := by decide
  have d14 : msgNegFail ≠ msgMismatch := by decide
  have d23 : msgNeuFail ≠ msgPosFail := by decide
  have d24 : msgNeuFail ≠ msgMismatch := by decide
  have d34 : msgPosFail ≠ msgMismatch := by decide
  refine ⟨?_, ?_, ?_, ?_, analyze_sublist_msgs neg neu pos, ?_⟩ <;>
    simp [analyze, List.mem_append, mem_ite_singleton, ite_singleton_eq_nil,
      List.isEmpty_iff, bne_iff_ne, d12, d13, d14, d23, d24, d34,
      d12.symm, d13.symm, d14.symm, d23.symm, d24.symm, d34.symm]

/-- C1 witness: on three empty lists all three failure messages appear. -/
theorem analyze_diagnostics_complete_witness :
    msgNegFail ∈ analyze [] [] [] :=
  (analyze_diagnostics_complete [] [] []).1.mpr rfl

/-- C2 counterexample: on an explanation that already ends with terminal
punctuation the sanitizer keeps the final word — contradicting the claim
that the last whitespace-delimited token is dropped unconditionally. -/
theorem sanitize_keeps_final_word_when_terminated :
    sanitize_explanation "it is fine.".toList = "it is fine.".toList := by decide

/-- C2 amended: the sanitizer's truncation step drops the maximal trailing
run of word characters only when the explanation ends with a word character
(or with a word character directly before a lone final newline); an
explanation ending with any other non-word character — in particular with
terminal punctuation — passes the truncation step unchanged. -/
theorem reSub_drops_only_when_unterminated :
    (∀ (s : PyStr) (c : Char), s.getLast? = some c → isWordChar c = false →
      c ≠ '\n' → reSubTrailingWord s = s) ∧
    reSubTrailingWord "it is fi".toList = "it is ".toList := by
  constructor
  · intro s c hc hw hcn
    unfold reSubTrailingWord
    rw [hc]
    rw [if_neg (by simp [hcn])]
    unfold dropTrailingWordRun
    have hh : s.reverse.head? = some c := by rw [List.head?_reverse]; exact hc
    rw [dropWhile_eq_self_of_head? _ hh hw, List.reverse_reverse]
  · decide

/-- C2 amended witness: a period-terminated string is left unchanged. -/
theorem reSub_drops_only_when_unterminated_witness :
    reSubTrailingWord "ok.".toList = "ok.".toList :=
  reSub_drops_only_when_unterminated.1 "ok.".toList '.' (by decide) (by decide)
    (by decide)

/-- C3 counterexample: on the empty gateway response the sanitized
explanation is the single period, not the empty string. -/
theorem sanitize_empty_input_gives_period :
    sanitize_explanation [] = ['.'] ∧ (['.'] : PyStr) ≠ [] := by decide

/-- C3 amended: the sanitized explanation always ends with a period and in
particular is never the empty string; on total model failure it degenerates
to the single character period. -/
theorem sanitize_never_empty (s : PyStr) :
    (sanitize_explanation s).getLast? = some '.' ∧ sanitize_explanation s ≠ [] :=
  ⟨sanitize_explanation_getLast s, sanitize_explanation_ne_nil s⟩

/-- C3 amended witness. -/
theorem sanitize_never_empty_witness : sanitize_explanation "x".toList ≠ [] :=
  (sanitize_never_empty "x".toList).2

/-- C4 counterexample: a nine-line model response yields nine neutral items,
exceeding the claimed 8-item bound. -/
theorem extract_neutral_nine_items :
    (extract_neutral "a\nb\nc\nd\ne\nf\ng\nh\ni".toList).length = 9 := by decide

/-- C4 amended: `extract_neutral` returns exactly one item per non-blank
line of the raw response; no upper bound (in particular no 8-item cap) is
enforced, the 4-to-8 range being prompt-level guidance only. -/
theorem extract_neutral_one_item_per_line (raw : PyStr) :
    (extract_neutral raw).length =
      ((pySplitLines raw).filter (fun l => !(pyStrip l).isEmpty)).length := by
  unfold extract_neutral
  rw [List.length_map]

/-- C5: every surviving negative item is lower-cased, has at most 3
whitespace-delimited words and contains no banned process/abstraction
substring; the returned list has at most 10 items and is an
order-preserving sublist of the parsed candidates. -/
theorem extract_negative_filter_sound (raw : PyStr) :
    (extract_negative raw).length ≤ 10 ∧
    (extract_negative raw).all (fun it =>
      decide ((pyWords it).length ≤ 3) &&
      negBanned.all (fun b => !(isSubOf b it)) &&
      (pyLower it == it)) = true ∧
    (extract_negative raw).Sublist (parseNegItems raw) := by
  refine ⟨List.length_take_le 10 _, ?_, (List.take_sublist _ _).trans (List.filter_sublist _)⟩
  apply List.all_eq_true.mpr
  intro it hit
  have h1 : it ∈ (parseNegItems raw).filter negKeep := List.mem_of_mem_take hit
  obtain ⟨h2, h3⟩ := List.mem_filter.mp h1
  have hparts : ((∀ x ∈ negBanned, isSubOf x it = false) ∧ (pyWords it).length ≤ 3) ∧
      ∀ x ∈ propertyKeywords, ¬x = it ∧ isSubOf (x ++ [' ']) it = false := by
    simpa [negKeep, Bool.and_eq_true, Bool.not_eq_true'] using h3
  have hwords : decide ((pyWords it).length ≤ 3) = true := decide_eq_true hparts.1.2
  have hban : negBanned.all (fun b => !(isSubOf b it)) = true := by
    apply List.all_eq_true.mpr
    intro b hb
    simpa using hparts.1.1 b hb
  have hlow : (pyLower it == it) = true := by
    obtain ⟨l0, hl0, hiteq⟩ := List.mem_map.mp h2
    rw [← hiteq, pyLower_idem]
    exact beq_self_eq_true _
  simp only [hwords, hban, hlow, Bool.and_self, Bool.and_true]

/-- C6: the positive list is truncated to at most the length of the neutral
list, and equality is not guaranteed: on an empty model response with one
neutral item the positive list is strictly shorter. -/
theorem extract_positive_length_bound :
    (∀ (neutral : List PyStr) (raw : PyStr),
      (extract_positive neutral raw).length ≤ neutral.length) ∧
    (extract_positive ["a.".toList] []).length < (["a.".toList] : List PyStr).length := by
  constructor
  · intro neutral raw
    exact List.length_take_le _ _
  · decide

/-- C7: every neutral item ends with a period and not with two periods —
the character before the final period, when present, is never a period. -/
theorem extract_neutral_single_trailing_period (raw : PyStr) :
    (extract_neutral raw).all endsWithExactlyOneDot = true := by
  apply List.all_eq_true.mpr
  intro it hit
  unfold extract_neutral at hit
  obtain ⟨l0, hl0, hiteq⟩ := List.mem_map.mp hit
  subst hiteq
  unfold endsWithExactlyOneDot
  rw [List.getLast?_concat, List.dropLast_concat]
  cases hr : (pyRstripChars ['.'] (pyStrip l0)).getLast? with
  | none => decide
  | some c =>
    have hcontains := getLast?_pyRstripChars hr
    have hcne : c ≠ '.' := by
      intro hceq
      rw [hceq] at hcontains
      exact absurd hcontains (by decide)
    simp [hcne]

/-- C8 counterexample: the candidate "high density gas" carries the
qualifying modifier "high" on the property term "density", yet the hard
filter still rejects it, because the term occurs followed by a space. -/
theorem extract_negative_rejects_modified_nonfinal_term :
    extract_negative "high density gas".toList = [] := by decide

/-- C8 amended: the bare-property rule discards a candidate exactly when it
equals a property term or contains a property term immediately followed by
a space; hence every surviving item neither equals a term nor contains
"term " — while a term standing as the final word after a modifier (such as
"kinetic energy") does survive. -/
theorem extract_negative_property_space_rule :
    (∀ raw : PyStr, (extract_negative raw).all (fun it =>
      propertyKeywords.all (fun pk =>
        !(pk == it) && !(isSubOf (pk ++ [' ']) it))) = true) ∧
    extract_negative "kinetic energy".toList = ["kinetic energy".toList] := by
  constructor
  · intro raw
    apply List.all_eq_true.mpr
    intro it hit
    have h1 : it ∈ (parseNegItems raw).filter negKeep := List.mem_of_mem_take hit
    obtain ⟨h2, h3⟩ := List.mem_filter.mp h1
    have hparts : ((∀ x ∈ negBanned, isSubOf x it = false) ∧ (pyWords it).length ≤ 3) ∧
        ∀ x ∈ propertyKeywords, ¬x = it ∧ isSubOf (x ++ [' ']) it = false := by
      simpa [negKeep, Bool.and_eq_true, Bool.not_eq_true'] using h3
    apply List.all_eq_true.mpr
    intro pk hpk
    have hp := hparts.2 pk hpk
    simp [hp.1, hp.2]
  · decide

/-- C9: the explanation sanitizer is idempotent on every input whose
sanitized form exposes no banned term. -/
theorem sanitize_explanation_idem (s : PyStr)
    (h : bannedExplanationTerms.all
      (fun b => !(isSubOf b (sanitize_explanation s))) = true) :
    sanitize_explanation (sanitize_explanation s) = sanitize_explanation s := by
  apply sanitize_explanation_fixed (sanitize_explanation_getLast s)
    (sanitize_explanation_no_newline s) (pyStrip_sanitize_explanation s)
  intro b hb
  have := List.all_eq_true.mp h b hb
  simpa using this

/-- C9 witness: a concrete input with no banned term in its sanitization. -/
theorem sanitize_explanation_idem_witness :
    sanitize_explanation (sanitize_explanation "Gas expands".toList) =
      sanitize_explanation "Gas expands".toList :=
  sanitize_explanation_idem "Gas expands".toList (by decide)

/-- C10: every run performs exactly four gateway invocations, in strict
order — explanation, then negative extraction (prompted with the sanitized
first response), then neutral (prompted with the extracted negative list),
then positive (prompted with the extracted neutral list) — and the
diagnostics are computed from the three extracted lists afterwards. -/
theorem run_four_sequential_calls (oracle : PyStr → PyStr → PyStr) (topic : PyStr) :
    ((run oracle topic).2.length = 4) ∧
    (run oracle topic).2 =
      [(modelR1, explanationPrompt topic),
       (model4oMini, negativePrompt (sanitize_explanation
         (oracle modelR1 (explanationPrompt topic)))),
       (modelR1, neutralPrompt (extract_negative
         (oracle model4oMini (negativePrompt (sanitize_explanation
           (oracle modelR1 (explanationPrompt topic))))))),
       (model4oMini, positivePrompt (extract_neutral
         (oracle modelR1 (neutralPrompt (extract_negative
           (oracle model4oMini (negativePrompt (sanitize_explanation
             (oracle modelR1 (explanationPrompt topic))))))))))] ∧
    (run oracle topic).1.diagnostics =
      analyze (run oracle topic).1.negative (run oracle topic).1.neutral
        (run oracle topic).1.positive :=
  ⟨rfl, rfl, rfl⟩
